import Mathlib

/-!
# llm-d-inference-sim: response text and token accounting (`utils.go`)

A shallow embedding of `pkg/llm-d-inference-sim/utils.go`.

Conventions of the embedding.

* A Go `string` holding well-formed UTF-8 text is a `List Char`, the list of its code points.
  Short fixed strings that are only compared or concatenated (parameter names, finish reasons,
  error messages) are Lean `String`s.
* A Go `*int64` is an `Option Int` (`nil` is `none`); a Go `int` or `int64` is an `Int`, and the one
  place where the source does arithmetic on them (`validateContextWindow`) wraps explicitly modulo
  `2 ^ 64`.
* A Go `(value, error)` result is a pair whose second component is `none` for a `nil` error and
  `some msg` for an error with message `msg`.
-/

namespace LlmdInferenceSim

/-! ## Machine integers -/

/-- The values of the Go type `int64`. -/
def inInt64 (x : Int) : Prop := -(2 : Int) ^ 63 ≤ x ∧ x < (2 : Int) ^ 63

instance (x : Int) : Decidable (inInt64 x) := by
  unfold inInt64
  exact inferInstance

/-- Two's complement wrap-around of an integer to the `int64` range: the result of an `int64`
addition, or of a conversion `int64(x)`, whose exact value is `x`. -/
def wrapInt64 (x : Int) : Int := (x + (2 : Int) ^ 63) % (2 : Int) ^ 64 - (2 : Int) ^ 63

/-! ## `getMaxTokens` -/

/-- The message built by `fmt.Errorf("%s must be at least 1, got %d", typeToken, *tokens)`. -/
def errorfAtLeastOne (typeToken : String) (tokens : Int) : String :=
  typeToken ++ " must be at least 1, got " ++ toString tokens

/-- `getMaxTokens` of `utils.go`: returns the max tokens or an error if incorrect. The first
component of the local pair is the variable `tokens`, the second the variable `typeToken`. -/
def getMaxTokens (maxCompletionTokens maxTokens : Option Int) : Option Int × Option String :=
  let sel : Option Int × String :=
    if maxCompletionTokens ≠ none then (maxCompletionTokens, "max_completion_tokens")
    else if maxTokens ≠ none then (maxTokens, "max_tokens")
    else (none, "")
  match sel.1 with
  | some t => if t < 1 then (none, some (errorfAtLeastOne sel.2 t)) else (sel.1, none)
  | none => (sel.1, none)

/-- The parameter `getMaxTokens` chooses: `maxCompletionTokens` when present, otherwise
`maxTokens`. -/
def chosenBudget (maxCompletionTokens maxTokens : Option Int) : Option Int :=
  match maxCompletionTokens with
  | some a => some a
  | none => maxTokens

/-! ## `validateContextWindow` -/

/-- `validateContextWindow` of `utils.go`: the triple `(isValid, completionTokens, totalTokens)`.
The conversions `int64(promptTokens)`, `int64(maxModelLen)` and the `int64` addition wrap. -/
def validateContextWindow (promptTokens : Int) (maxCompletionTokens : Option Int)
    (maxModelLen : Int) : Bool × Int × Int :=
  let completionTokens : Int :=
    match maxCompletionTokens with
    | some c => c
    | none => 0
  let totalTokens : Int := wrapInt64 (wrapInt64 promptTokens + completionTokens)
  let isValid : Bool := decide (totalTokens ≤ wrapInt64 maxModelLen)
  (isValid, completionTokens, totalTokens)

/-! ## `strings.Fields`, `strings.Join` and `getResponseText` -/

/-- Go `unicode.IsSpace`: the Latin-1 spaces `\t \n \v \f \r`, space, U+0085, U+00A0, and the
other code points with the Unicode property `White_Space`. -/
def isSpace (c : Char) : Bool :=
  let n := c.toNat
  (9 ≤ n && n ≤ 13) || n == 32 || n == 0x85 || n == 0xA0 || n == 0x1680 ||
    (0x2000 ≤ n && n ≤ 0x200A) || n == 0x2028 || n == 0x2029 || n == 0x202F ||
    n == 0x205F || n == 0x3000

/-- The scanning loop of Go `strings.Fields`: `cur` is the field being read (the text between
`fieldStart` and the current index), the second argument is the unread text. A white space
character closes the field being read, if there is one; the end of the text closes the last
field. -/
def fieldsLoop : List Char → List Char → List (List Char)
  | cur, [] => if cur = [] then [] else [cur]
  | cur, c :: rest =>
    if isSpace c then
      if cur = [] then fieldsLoop [] rest else cur :: fieldsLoop [] rest
    else fieldsLoop (cur ++ [c]) rest

/-- Go `strings.Fields`: splits the text around each run of one or more white space characters;
the result has no empty field. -/
def Fields (s : List Char) : List (List Char) := fieldsLoop [] s

/-- Go `strings.Join`: concatenates the elements, placing `sep` between consecutive ones. -/
def Join : List (List Char) → List Char → List Char
  | [], _ => []
  | [a], _ => a
  | a :: b :: rest, sep => a ++ sep ++ Join (b :: rest) sep

/-- Modelled from the spec: the constant `stopFinishReason` is declared outside `utils.go`; the
spec names the finish reason of a full emission `stop`. -/
def stopFinishReason : String := "stop"

/-- Modelled from the spec: the constant `lengthFinishReason` is declared outside `utils.go`; the
spec names the finish reason of an emission truncated by the budget `length`. -/
def lengthFinishReason : String := "length"

/-- `getResponseText` of `utils.go`: the response text, from a given text, considering the max
completion tokens if present, and a finish reason. -/
def getResponseText (maxCompletionTokens : Option Int) (text : List Char) : List Char × String :=
  match maxCompletionTokens with
  | some b =>
    if b ≤ 0 then ([], stopFinishReason)
    else
      let tokens := Fields text
      if b ≥ (tokens.length : Int) then (text, stopFinishReason)
      else (Join (tokens.take b.toNat) [' '], lengthFinishReason)
  | none => (text, stopFinishReason)

/-! ## The tokenizer -/

/-- The single-character alternatives of the regular expression `re`, in the order of the source:
`{ } : , - . ? ! ; @ # $ % ^ & * ( ) + - _ ~ / \ > < [ ] = "`. -/
def symbolSet : List Char :=
  [Char.ofNat 123, Char.ofNat 125, ':', ',', '-', '.', '?', '!', ';', '@', '#', '$', '%',
    '^', '&', '*', '(', ')', '+', '-', '_', '~', '/', Char.ofNat 92, '>', '<', '[', ']', '=',
    Char.ofNat 34]

/-- A character matched by one of the single-character alternatives of `re`. -/
def isSymbol (c : Char) : Bool := decide (c ∈ symbolSet)

/-- The alphanumeric characters of the class `\w`: `[0-9A-Za-z]`. -/
def isAlnum (c : Char) : Bool :=
  ('0' ≤ c && c ≤ '9') || ('A' ≤ c && c ≤ 'Z') || ('a' ≤ c && c ≤ 'z')

/-- The class `\w` of Go regular expressions: `[0-9A-Za-z_]`. -/
def isWordChar (c : Char) : Bool := isAlnum c || c == '_'

/-- The members of the class `\s` of Go regular expressions: `[\t\n\f\r ]`. -/
def reSpaceSet : List Char := [Char.ofNat 9, Char.ofNat 10, Char.ofNat 12, Char.ofNat 13, ' ']

/-- The class `\s` of Go regular expressions. -/
def isReSpace (c : Char) : Bool := decide (c ∈ reSpaceSet)

/-- The successive matches of `re` in the unread text, as `re.FindAllString` collects them. At the
head of the unread text the alternation is tried in order (leftmost-first): a symbol, the
underscore included, matches alone; otherwise `\w+` takes the longest run of word characters; in
both cases `(\s*)` then takes the longest run of `\s`, and the search resumes after the match. A
character at which no alternative matches is passed over. Every step reads at least one character,
so fuel equal to the length of the text is never exhausted. -/
def findAllFrom : Nat → List Char → List (List Char)
  | 0, _ => []
  | _ + 1, [] => []
  | fuel + 1, c :: rest =>
    if isSymbol c then
      (c :: rest.takeWhile isReSpace) :: findAllFrom fuel (rest.dropWhile isReSpace)
    else if isWordChar c then
      let after := rest.dropWhile isWordChar
      (c :: (rest.takeWhile isWordChar ++ after.takeWhile isReSpace)) ::
        findAllFrom fuel (after.dropWhile isReSpace)
    else findAllFrom fuel rest

/-- `tokenize` of `utils.go`: `re.FindAllString(text, -1)`. -/
def tokenize (text : List Char) : List (List Char) := findAllFrom text.length text

/-! ### The token grammar -/

/-- The token `tok` stands in `text` between `pre` and `post` as `core` followed by the run `ws`
of `\s` characters, and `ws` is all of the `\s` that follows `core` in `text`. -/
def occursAs (text tok pre core ws post : List Char) : Prop :=
  text = pre ++ core ++ ws ++ post ∧ tok = core ++ ws ∧
    (∀ c ∈ ws, isReSpace c = true) ∧ (∀ c, post.head? = some c → isReSpace c = false)

/-- The core of a token is exactly one character of the symbol set. -/
def isSymbolCore (core : List Char) : Prop := ∃ s, core = [s] ∧ isSymbol s = true

/-- The core of a token is a run of word characters that is maximal in the text: the character
before it (the last of `pre`) and the character after it (the first of `follow`), when there is
one, are not word characters. -/
def isMaximalWordRun (pre core follow : List Char) : Prop :=
  core ≠ [] ∧ (∀ c ∈ core, isWordChar c = true) ∧
    (∀ c, follow.head? = some c → isWordChar c = false) ∧
    (∀ c, pre.getLast? = some c → isWordChar c = false)

/-- The token grammar in the spec's words: a token is non-empty and is a symbol or a maximal run
of word characters, followed by all the `\s` that comes next. -/
def tokenGrammar (text tok : List Char) : Prop :=
  tok ≠ [] ∧ ∃ pre core ws post, occursAs text tok pre core ws post ∧
    (isSymbolCore core ∨ isMaximalWordRun pre core (ws ++ post))

/-- The core of a token is a run of word characters as the code matches it: it begins with an
alphanumeric character, the character after it is not a word character, and the character before
it is not alphanumeric (it may be an underscore). -/
def isWordRunCore (pre core follow : List Char) : Prop :=
  core ≠ [] ∧ (∀ c ∈ core, isWordChar c = true) ∧
    (∀ c, core.head? = some c → isAlnum c = true) ∧
    (∀ c, follow.head? = some c → isWordChar c = false) ∧
    (∀ c, pre.getLast? = some c → isAlnum c = false)

/-- The token grammar of the code: a token is non-empty and is a symbol or a run of word
characters in the sense of `isWordRunCore`, followed by all the `\s` that comes next. -/
def tokenGrammarOfCode (text tok : List Char) : Prop :=
  tok ≠ [] ∧ ∃ pre core ws post, occursAs text tok pre core ws post ∧
    (isSymbolCore core ∨ isWordRunCore pre core (ws ++ post))

/-! ## The response corpus and the lookup by substring -/

/-- `chatCompletionFakeResponses` of `utils.go`: the list of responses used in random mode. -/
def chatCompletionFakeResponses : List (List Char) :=
  ["Testing@, #testing 1$ ,2%,3^, [4&*5], 6~, 7-_ + (8 : 9) / \\ < > .".toList,
    "Testing, testing 1,2,3.".toList,
    "I am fine, how are you today?".toList,
    "I am your AI assistant, how can I help you today?".toList,
    "Today is a nice sunny day.".toList,
    "The temperature here is twenty-five degrees centigrade.".toList,
    "Today it is partially cloudy and raining.".toList,
    "To be or not to be that is the question.".toList,
    "Alas, poor Yorick! I knew him, Horatio: A fellow of infinite jest".toList,
    "The rest is silence. ".toList,
    "Give a man a fish and you feed him for a day; teach a man to fish and you feed him for a lifetime".toList]

/-- Go `strings.HasPrefix`: the text `s` begins with `p`. -/
def HasPrefix : List Char → List Char → Bool
  | _, [] => true
  | [], _ :: _ => false
  | a :: s, b :: p => a == b && HasPrefix s p

/-- Go `strings.Contains`: `substr` occurs in `s`, that is, some position of `s` (its end
included) begins with `substr`. -/
def Contains : List Char → List Char → Bool
  | [], substr => HasPrefix [] substr
  | a :: s, substr => HasPrefix (a :: s) substr || Contains s substr

/-- The loop of `getFullTextFromPartialString` over the entries not yet visited: the first entry
that contains `part` is returned, and the empty string when the entries are exhausted. -/
def lookupFrom : List (List Char) → List Char → List Char
  | [], _ => []
  | str :: rest, part => if Contains str part then str else lookupFrom rest part

/-- `getFullTextFromPartialString` of `utils.go`: given a partial string, access the full string. -/
def getFullTextFromPartialString (part : List Char) : List Char :=
  lookupFrom chatCompletionFakeResponses part

/-! ## The random source -/

/-- The generator of the Go package `math/rand` held in the variable `randomGenerator`. The
package is library code: the state of the generator is a value of an arbitrary type `σ`, and each
method is a function from the state before the call to the value drawn and the state after it.
`Intn_range` is the documented contract of `(*rand.Rand).Intn`: for `n > 0` the value lies in the
half-open interval `[0, n)` (for `n ≤ 0` the method panics, see `randomInt`). `NormFloat64` draws
from the standard normal distribution; its values are taken in an ordered field `α`. -/
structure Rand (σ : Type) (α : Type) where
  /-- The method `Intn`. -/
  Intn : Int → σ → Int × σ
  /-- The contract of `Intn`. -/
  Intn_range : ∀ (n : Int) (s : σ), 0 < n → 0 ≤ (Intn n s).1 ∧ (Intn n s).1 < n
  /-- The method `NormFloat64`. -/
  NormFloat64 : σ → α × σ

/-- `randomInt` of `utils.go`: an integer between `min` and `max` (included). The Go `int` is
taken to be 64 bits wide, so `max-min+1` and the final addition wrap; the result is `none` when
`Intn` panics on an argument `≤ 0`. -/
def randomInt {σ α : Type} (g : Rand σ α) (min max : Int) (s : σ) : Option (Int × σ) :=
  let n := wrapInt64 (wrapInt64 (max - min) + 1)
  if n ≤ 0 then none
  else
    let draw := g.Intn n s
    some (wrapInt64 (draw.1 + min), draw.2)

/-- `getRandomResponseText` of `utils.go`: a random response text from the list of responses,
considering the max completion tokens, and a finish reason. The result is `none` when `randomInt`
panics or when the index is outside the list. -/
def getRandomResponseText {σ α : Type} (g : Rand σ α) (maxCompletionTokens : Option Int)
    (s : σ) : Option ((List Char × String) × σ) :=
  match randomInt g 0 ((chatCompletionFakeResponses.length : Int) - 1) s with
  | none => none
  | some (index, s1) =>
    if index < 0 then none
    else
      match chatCompletionFakeResponses[index.toNat]? with
      | none => none
      | some text => some (getResponseText maxCompletionTokens text, s1)

/-- `randomNorm` of `utils.go` over exact arithmetic in an ordered field: the float64 constants
`0.3` and `1.7` are the fractions `3/10` and `17/10`. When `stddev` is zero no draw is made and
the state of the generator is returned unchanged. -/
def randomNorm {σ α : Type} [LinearOrderedField α] (g : Rand σ α) (mean stddev : α) (s : σ) :
    α × σ :=
  if stddev = 0 then (mean, s)
  else
    let draw := g.NormFloat64 s
    let value := draw.1 * stddev + mean
    if value < 3 / 10 * mean then (3 / 10 * mean, draw.2)
    else if value > 17 / 10 * mean then (17 / 10 * mean, draw.2)
    else (value, draw.2)

/-- A generator for exercising the definitions on concrete inputs: its state is a counter, `Intn`
returns the counter reduced modulo `n`, and `NormFloat64` returns the counter shifted by 2. -/
def counterRand : Rand Nat ℚ where
  Intn n s := ((s : Int) % n, s + 1)
  Intn_range := fun _ _ hn => ⟨Int.emod_nonneg _ (ne_of_gt hn), Int.emod_lt_of_pos _ hn⟩
  NormFloat64 s := ((s : ℚ) - 2, s + 1)

/-! ## Token budget resolution -/

/-- C1. Precedence: when both budgets are present and valid (`a ≥ 1`, `b ≥ 1`), `getMaxTokens`
succeeds with no error and returns `a`; when `a ≠ b` the returned budget is not `b`. -/
theorem getMaxTokens_precedence (a b : Int) (ha : 1 ≤ a) (hb : 1 ≤ b) :
    getMaxTokens (some a) (some b) = (some a, none) ∧
      (a ≠ b → (getMaxTokens (some a) (some b)).1 ≠ some b) := by
  have _hb := hb
  have h : getMaxTokens (some a) (some b) = (some a, none) := by
    simp [getMaxTokens, Int.not_lt.mpr ha]
  refine ⟨h, fun hab => ?_⟩
  rw [h]
  intro hc
  exact hab (Option.some.inj hc)

theorem getMaxTokens_precedence_witness :
    getMaxTokens (some 7) (some 3) = (some 7, none) ∧
      ((7 : Int) ≠ 3 → (getMaxTokens (some 7) (some 3)).1 ≠ some 3) :=
  getMaxTokens_precedence 7 3 (by decide) (by decide)

/-- C2. Validation names the offending parameter: for `x < 1`, `getMaxTokens (some x) mt` fails
for every `mt` with the message `max_completion_tokens must be at least 1, got <x>` and returns no
budget, and `getMaxTokens none (some x)` fails with `max_tokens must be at least 1, got <x>`. -/
theorem getMaxTokens_invalid (x : Int) (hx : x < 1) :
    (∀ mt : Option Int, getMaxTokens (some x) mt =
        (none, some ("max_completion_tokens must be at least 1, got " ++ toString x))) ∧
      getMaxTokens none (some x) =
        (none, some ("max_tokens must be at least 1, got " ++ toString x)) := by
  constructor
  · intro mt
    simp [getMaxTokens, hx, errorfAtLeastOne]
  · simp [getMaxTokens, hx, errorfAtLeastOne]

theorem getMaxTokens_invalid_witness :
    getMaxTokens (some 0) (some 5) =
        (none, some "max_completion_tokens must be at least 1, got 0") ∧
      getMaxTokens none (some 0) = (none, some "max_tokens must be at least 1, got 0") :=
  ⟨(getMaxTokens_invalid 0 (by decide)).1 (some 5), (getMaxTokens_invalid 0 (by decide)).2⟩

/-- C3. `getMaxTokens` fails if and only if the chosen parameter is present and `< 1`; on failure
the returned budget is absent; on success the chosen parameter is returned unchanged (so `maxTokens`
when only it is present, and nothing when both are absent); a returned budget is always `≥ 1`. -/
theorem getMaxTokens_characterisation (maxCompletionTokens maxTokens : Option Int) :
    ((getMaxTokens maxCompletionTokens maxTokens).2 ≠ none ↔
        ∃ v, chosenBudget maxCompletionTokens maxTokens = some v ∧ v < 1) ∧
      ((getMaxTokens maxCompletionTokens maxTokens).2 ≠ none →
        (getMaxTokens maxCompletionTokens maxTokens).1 = none) ∧
      ((getMaxTokens maxCompletionTokens maxTokens).2 = none →
        (getMaxTokens maxCompletionTokens maxTokens).1 =
          chosenBudget maxCompletionTokens maxTokens) ∧
      (∀ b, getMaxTokens none (some b) = (some b, none) ∨
        (getMaxTokens none (some b)).2 ≠ none) ∧
      getMaxTokens none none = (none, none) ∧
      (∀ v, (getMaxTokens maxCompletionTokens maxTokens).1 = some v → 1 ≤ v) := by
  refine ⟨?_, ?_, ?_, ?_, ?_, ?_⟩
  · cases maxCompletionTokens with
    | some a => by_cases h : a < 1 <;> simp [getMaxTokens, chosenBudget, h]
    | none =>
      cases maxTokens with
      | some b => by_cases h : b < 1 <;> simp [getMaxTokens, chosenBudget, h]
      | none => simp [getMaxTokens, chosenBudget]
  · cases maxCompletionTokens with
    | some a => by_cases h : a < 1 <;> simp [getMaxTokens, h]
    | none =>
      cases maxTokens with
      | some b => by_cases h : b < 1 <;> simp [getMaxTokens, h]
      | none => simp [getMaxTokens]
  · cases maxCompletionTokens with
    | some a => by_cases h : a < 1 <;> simp [getMaxTokens, chosenBudget, h]
    | none =>
      cases maxTokens with
      | some b => by_cases h : b < 1 <;> simp [getMaxTokens, chosenBudget, h]
      | none => simp [getMaxTokens, chosenBudget]
  · intro b
    by_cases h : b < 1 <;> simp [getMaxTokens, h]
  · simp [getMaxTokens]
  · intro v
    cases maxCompletionTokens with
    | some a =>
      by_cases h : a < 1
      · simp [getMaxTokens, h]
      · simp only [getMaxTokens]
        simp [h]
        intro hv
        omega
    | none =>
      cases maxTokens with
      | some b =>
        by_cases h : b < 1
        · simp [getMaxTokens, h]
        · simp only [getMaxTokens]
          simp [h]
          intro hv
          omega
      | none => simp [getMaxTokens]

/-! ## Context window -/

theorem wrapInt64_of_inInt64 (x : Int) (h : inInt64 x) : wrapInt64 x = x := by
  unfold inInt64 at h
  unfold wrapInt64
  omega

/-- C4, as stated, fails when the sum leaves the `int64` range: with `promptTokens = 1`, a budget
of `2 ^ 63 - 1` and `maxModelLen = 0`, the exact sum is `2 ^ 63 > 0`, yet the code returns
`totalTokens = -2 ^ 63` and `isValid = true`. -/
theorem validateContextWindow_wraps :
    inInt64 1 ∧ inInt64 (2 ^ 63 - 1) ∧ inInt64 0 ∧
      validateContextWindow 1 (some (2 ^ 63 - 1)) 0 = (true, 2 ^ 63 - 1, -2 ^ 63) ∧
      (validateContextWindow 1 (some (2 ^ 63 - 1)) 0).2.2 ≠ 1 + (2 ^ 63 - 1) ∧
      ¬ ((validateContextWindow 1 (some (2 ^ 63 - 1)) 0).1 = true ↔
        (1 : Int) + (2 ^ 63 - 1) ≤ 0) := by
  decide

/-- C4, amended. Context window: when `promptTokens` and `maxModelLen` are `int64` values and the
exact sum `p + (c or 0)` is an `int64` value, `validateContextWindow p c m` returns
`completionTokens = (c or 0)`, `totalTokens = p + (c or 0)` and `isValid` true exactly when that
sum is `≤ m`. -/
theorem validateContextWindow_exact (p : Int) (c : Option Int) (m : Int)
    (hp : inInt64 p) (hm : inInt64 m) (hsum : inInt64 (p + c.getD 0)) :
    validateContextWindow p c m = (decide (p + c.getD 0 ≤ m), c.getD 0, p + c.getD 0) := by
  cases c with
  | some v =>
    simp only [Option.getD_some] at hsum
    simp only [validateContextWindow, Option.getD_some, wrapInt64_of_inInt64 p hp,
      wrapInt64_of_inInt64 m hm, wrapInt64_of_inInt64 _ hsum]
  | none =>
    simp only [Option.getD_none] at hsum
    simp only [validateContextWindow, Option.getD_none, wrapInt64_of_inInt64 p hp,
      wrapInt64_of_inInt64 m hm, wrapInt64_of_inInt64 _ hsum]

theorem validateContextWindow_exact_witness :
    validateContextWindow 100 (some 28) 128 = (true, 28, 128) ∧
      validateContextWindow 100 none 99 = (false, 0, 100) :=
  ⟨validateContextWindow_exact 100 (some 28) 128 (by decide) (by decide) (by decide),
    validateContextWindow_exact 100 none 99 (by decide) (by decide) (by decide)⟩

/-! ## Response truncation -/

/-- C5. With no budget, `getResponseText` returns the text unchanged with finish reason `stop`,
whatever the text (empty, or with leading, trailing or repeated white space). -/
theorem getResponseText_nil (text : List Char) :
    getResponseText none text = (text, stopFinishReason) := rfl

/-! ### Facts about `strings.Fields` and `strings.Join` -/

theorem fieldsLoop_word (w : List Char) (hw : ∀ c ∈ w, isSpace c = false) :
    ∀ cur rest, fieldsLoop cur (w ++ rest) = fieldsLoop (cur ++ w) rest := by
  induction w with
  | nil => intro cur rest; simp
  | cons c w ih =>
    intro cur rest
    have hc : isSpace c = false := hw c (List.mem_cons_self _ _)
    have hw1 : ∀ d ∈ w, isSpace d = false := fun d hd => hw d (List.mem_cons_of_mem _ hd)
    have step : fieldsLoop cur (c :: (w ++ rest)) = fieldsLoop (cur ++ [c]) (w ++ rest) := by
      simp [fieldsLoop, hc]
    rw [List.cons_append, step, ih hw1 (cur ++ [c]) rest]
    simp

theorem fieldsLoop_mem (rest : List Char) :
    ∀ cur, (∀ c ∈ cur, isSpace c = false) →
      ∀ f ∈ fieldsLoop cur rest, f ≠ [] ∧ ∀ c ∈ f, isSpace c = false := by
  induction rest with
  | nil =>
    intro cur hcur f hf
    by_cases h : cur = []
    · simp [fieldsLoop, h] at hf
    · simp [fieldsLoop, h] at hf
      subst hf
      exact ⟨h, hcur⟩
  | cons c rest ih =>
    intro cur hcur f hf
    by_cases hc : isSpace c = true
    · by_cases h : cur = []
      · simp [fieldsLoop, hc, h] at hf
        exact ih [] (by simp) f hf
      · simp [fieldsLoop, hc, h] at hf
        rcases hf with hf | hf
        · subst hf
          exact ⟨h, hcur⟩
        · exact ih [] (by simp) f hf
    · have hc1 : isSpace c = false := by simpa using hc
      simp [fieldsLoop, hc1] at hf
      refine ih (cur ++ [c]) ?_ f hf
      intro d hd
      rcases List.mem_append.mp hd with hd | hd
      · exact hcur d hd
      · simp at hd
        subst hd
        exact hc1

/-- Every field returned by `Fields` is non-empty and free of white space. -/
theorem Fields_mem (s f : List Char) (hf : f ∈ Fields s) :
    f ≠ [] ∧ ∀ c ∈ f, isSpace c = false :=
  fieldsLoop_mem s [] (by simp) f hf

/-- Splitting a single-space join of non-empty, space-free words gives the words back. -/
theorem Fields_Join (ws : List (List Char))
    (h : ∀ w ∈ ws, w ≠ [] ∧ ∀ c ∈ w, isSpace c = false) :
    Fields (Join ws [' ']) = ws := by
  induction ws with
  | nil => simp [Join, Fields, fieldsLoop]
  | cons w ws ih =>
    have hw := h w (List.mem_cons_self _ _)
    have hws : ∀ v ∈ ws, v ≠ [] ∧ ∀ c ∈ v, isSpace c = false :=
      fun v hv => h v (List.mem_cons_of_mem _ hv)
    cases ws with
    | nil =>
      have e := fieldsLoop_word w hw.2 [] []
      simp only [List.append_nil, List.nil_append] at e
      simp [Join, Fields, e, fieldsLoop, hw.1]
    | cons v vs =>
      have e := fieldsLoop_word w hw.2 [] (' ' :: Join (v :: vs) [' '])
      have hsp : isSpace ' ' = true := by decide
      have ih1 := ih hws
      unfold Fields at ih1
      simp only [List.nil_append] at e
      simp only [Join, Fields, List.append_assoc, List.singleton_append]
      rw [e]
      simp [fieldsLoop, hsp, hw.1, ih1]

theorem Fields_Join_take (text : List Char) (k : Nat) :
    Fields (Join ((Fields text).take k) [' ']) = (Fields text).take k :=
  Fields_Join _ (fun w hw => Fields_mem text w (List.mem_of_mem_take hw))

theorem stop_ne_length : stopFinishReason ≠ lengthFinishReason := by decide

theorem getResponseText_of_lt (text : List Char) (b : Int) (hb : 1 ≤ b)
    (h : b < ((Fields text).length : Int)) :
    getResponseText (some b) text =
      (Join ((Fields text).take b.toNat) [' '], lengthFinishReason) := by
  have h1 : ¬ b ≤ 0 := by omega
  have h2 : ¬ ((Fields text).length : Int) ≤ b := by omega
  simp [getResponseText, h1, h2]

theorem getResponseText_of_ge (text : List Char) (b : Int) (hb : 1 ≤ b)
    (h : ((Fields text).length : Int) ≤ b) :
    getResponseText (some b) text = (text, stopFinishReason) := by
  have h1 : ¬ b ≤ 0 := by omega
  simp [getResponseText, h1, h]

theorem length_Fields_Join_take (text : List Char) (b : Int) (hb : 1 ≤ b)
    (h : b < ((Fields text).length : Int)) :
    ((Fields (Join ((Fields text).take b.toNat) [' '])).length : Int) = b := by
  rw [Fields_Join_take text b.toNat, List.length_take]
  omega

/-- C6, as stated, fails: the budget is compared with the number of white-space separated fields,
not with the number of tokens of `tokenize`. The text `I am fine, how are you today?` has 9
tokens and 7 fields; with budget 7 (`0 < 7 < 9`) the finish reason is `stop`, not `length`. -/
theorem getResponseText_not_tokenize_count :
    (tokenize "I am fine, how are you today?".toList).length = 9 ∧
      getResponseText (some 7) "I am fine, how are you today?".toList =
        ("I am fine, how are you today?".toList, stopFinishReason) ∧
      (getResponseText (some 7) "I am fine, how are you today?".toList).2 ≠
        lengthFinishReason := by
  decide

/-- C6, amended. Budget monotonicity against `strings.Fields`: with `n` the number of white-space
separated fields of the text, `getResponseText` returns finish reason `stop` for every budget
`b ≥ n` and finish reason `length` for every budget `b` with `0 < b < n`. -/
theorem getResponseText_budget_monotone (text : List Char) (b : Int) :
    (((Fields text).length : Int) ≤ b →
        (getResponseText (some b) text).2 = stopFinishReason) ∧
      (0 < b → b < ((Fields text).length : Int) →
        (getResponseText (some b) text).2 = lengthFinishReason) := by
  constructor
  · intro h
    by_cases h0 : b ≤ 0
    · simp [getResponseText, h0]
    · simp [getResponseText, h0, h]
  · intro h0 h
    have h1 : ¬ b ≤ 0 := by omega
    have h2 : ¬ ((Fields text).length : Int) ≤ b := by omega
    simp [getResponseText, h1, h2]

/-- C7. Truncation content, for budgets `b ≥ 1` (the budgets that reach the splitting code): with
`n` the number of fields `strings.Fields` splits the text into, if `b < n` the result is the first
`b` fields joined by single spaces with finish reason `length`, and splitting the emitted text
again yields exactly those `b` fields in order; if `b ≥ n` the result is `(text, stop)`. -/
theorem getResponseText_truncation (text : List Char) (b : Int) (hb : 1 ≤ b) :
    (b < ((Fields text).length : Int) →
        getResponseText (some b) text =
          (Join ((Fields text).take b.toNat) [' '], lengthFinishReason) ∧
        Fields (getResponseText (some b) text).1 = (Fields text).take b.toNat ∧
        ((Fields (getResponseText (some b) text).1).length : Int) = b) ∧
      (((Fields text).length : Int) ≤ b →
        getResponseText (some b) text = (text, stopFinishReason)) := by
  constructor
  · intro h
    have e := getResponseText_of_lt text b hb h
    refine ⟨e, ?_, ?_⟩
    · rw [e]
      exact Fields_Join_take text b.toNat
    · rw [e]
      exact length_Fields_Join_take text b hb h
  · intro h
    exact getResponseText_of_ge text b hb h

theorem getResponseText_truncation_witness :
    (Fields "I am fine, how are you today?".toList).length = 7 ∧
      getResponseText (some 3) "I am fine, how are you today?".toList =
        ("I am fine,".toList, lengthFinishReason) ∧
      Fields "I am fine,".toList = ["I".toList, "am".toList, "fine,".toList] ∧
      getResponseText (some 10) "I am fine, how are you today?".toList =
        ("I am fine, how are you today?".toList, stopFinishReason) :=
  ⟨by decide,
    ((getResponseText_truncation "I am fine, how are you today?".toList 3 (by decide)).1
      (by decide)).1,
    by decide,
    (getResponseText_truncation "I am fine, how are you today?".toList 10 (by decide)).2
      (by decide)⟩

/-- C8, as stated, fails: for a budget that is present and `≤ 0` the code returns the empty text
with finish reason `stop`, not `length`. -/
theorem getResponseText_nonpositive_not_length :
    getResponseText (some 0) "I am fine, how are you today?".toList = ([], stopFinishReason) ∧
      (getResponseText (some 0) "I am fine, how are you today?".toList).2 ≠
        lengthFinishReason := by
  decide

/-- C8, amended. Defensive branch: for every text and every budget `b` that is present and `≤ 0`,
`getResponseText` returns the empty text with finish reason `stop`. -/
theorem getResponseText_nonpositive (text : List Char) (b : Int) (hb : b ≤ 0) :
    getResponseText (some b) text = ([], stopFinishReason) := by
  simp [getResponseText, hb]

theorem getResponseText_nonpositive_witness :
    getResponseText (some (-2)) "Today is a nice sunny day.".toList = ([], stopFinishReason) :=
  getResponseText_nonpositive "Today is a nice sunny day.".toList (-2) (by decide)

/-- C9. Finish reason matches what was emitted: for a budget that is absent or `≥ 1`,
`getResponseText` returns exactly one of `stop` and `length`; it returns `stop` if and only if the
emitted text equals the text, and `length` if and only if the emitted text differs from it. -/
theorem getResponseText_finish_reason (text : List Char) (budget : Option Int)
    (hb : ∀ b, budget = some b → 1 ≤ b) :
    ((getResponseText budget text).2 = stopFinishReason ∨
        (getResponseText budget text).2 = lengthFinishReason) ∧
      ¬ ((getResponseText budget text).2 = stopFinishReason ∧
        (getResponseText budget text).2 = lengthFinishReason) ∧
      ((getResponseText budget text).2 = stopFinishReason ↔
        (getResponseText budget text).1 = text) ∧
      ((getResponseText budget text).2 = lengthFinishReason ↔
        (getResponseText budget text).1 ≠ text) := by
  have hne := stop_ne_length
  cases budget with
  | none =>
    have e : getResponseText none text = (text, stopFinishReason) := rfl
    rw [e]
    refine ⟨Or.inl rfl, fun h => hne h.2, by simp, ?_⟩
    simp only [ne_eq, not_true_eq_false, iff_false]
    exact hne
  | some b =>
    have h1 : 1 ≤ b := hb b rfl
    by_cases h : ((Fields text).length : Int) ≤ b
    · rw [getResponseText_of_ge text b h1 h]
      refine ⟨Or.inl rfl, fun h => hne h.2, by simp, ?_⟩
      simp only [ne_eq, not_true_eq_false, iff_false]
      exact hne
    · have hlt : b < ((Fields text).length : Int) := by omega
      have e := getResponseText_of_lt text b h1 hlt
      have hl := length_Fields_Join_take text b h1 hlt
      have hdiff : (getResponseText (some b) text).1 ≠ text := by
        rw [e]
        intro hc
        simp only at hc
        rw [hc] at hl
        omega
      refine ⟨Or.inr (by rw [e]), fun h => hne (h.1.symm.trans h.2), ?_, ?_⟩
      · constructor
        · intro hs
          rw [e] at hs
          exact absurd hs.symm hne
        · intro ht
          exact absurd ht hdiff
      · constructor
        · intro _
          exact hdiff
        · intro _
          rw [e]

theorem getResponseText_finish_reason_witness :
    ((getResponseText (some 3) "I am fine, how are you today?".toList).2 = stopFinishReason ∨
        (getResponseText (some 3) "I am fine, how are you today?".toList).2 =
          lengthFinishReason) ∧
      ¬ ((getResponseText (some 3) "I am fine, how are you today?".toList).2 =
          stopFinishReason ∧
        (getResponseText (some 3) "I am fine, how are you today?".toList).2 =
          lengthFinishReason) ∧
      ((getResponseText (some 3) "I am fine, how are you today?".toList).2 = stopFinishReason ↔
        (getResponseText (some 3) "I am fine, how are you today?".toList).1 =
          "I am fine, how are you today?".toList) ∧
      ((getResponseText (some 3) "I am fine, how are you today?".toList).2 =
          lengthFinishReason ↔
        (getResponseText (some 3) "I am fine, how are you today?".toList).1 ≠
          "I am fine, how are you today?".toList) :=
  getResponseText_finish_reason "I am fine, how are you today?".toList (some 3)
    (fun b h => by cases h; decide)

/-! ## The tokenizer -/

theorem isSymbol_not_alnum (c : Char) (h : isSymbol c = true) : isAlnum c = false := by
  have key : ∀ d ∈ symbolSet, isAlnum d = false := by decide
  exact key c (by simpa [isSymbol] using h)

theorem isReSpace_not_alnum (c : Char) (h : isReSpace c = true) : isAlnum c = false := by
  have key : ∀ d ∈ reSpaceSet, isAlnum d = false := by decide
  exact key c (by simpa [isReSpace] using h)

theorem isAlnum_of_word_not_symbol (c : Char) (hw : isWordChar c = true)
    (hs : isSymbol c = false) : isAlnum c = true := by
  unfold isWordChar at hw
  rcases Bool.or_eq_true _ _ ▸ hw with h | h
  · exact h
  · have hc : c = '_' := by simpa using h
    subst hc
    exact absurd hs (by decide)

theorem not_alnum_of_not_word (c : Char) (h : isWordChar c = false) : isAlnum c = false := by
  unfold isWordChar at h
  cases hal : isAlnum c with
  | false => rfl
  | true => simp [hal] at h

theorem head?_dropWhile_false (p : Char → Bool) (l : List Char) (x : Char)
    (h : (l.dropWhile p).head? = some x) : p x = false := by
  induction l with
  | nil => simp at h
  | cons a l ih =>
    by_cases ha : p a = true
    · rw [List.dropWhile_cons_of_pos ha] at h
      exact ih h
    · rw [List.dropWhile_cons_of_neg ha] at h
      simp at h
      subst h
      simpa using ha

theorem dropWhile_of_takeWhile_nil (p : Char → Bool) (l : List Char)
    (h : l.takeWhile p = []) : l.dropWhile p = l := by
  have e := List.takeWhile_append_dropWhile p l
  rw [h] at e
  simpa using e

theorem getLast?_append_mem (l r : List Char) (x : Char) (hr : r ≠ [])
    (h : (l ++ r).getLast? = some x) : x ∈ r := by
  rw [List.getLast?_append_of_ne_nil l hr] at h
  exact List.mem_of_getLast?_eq_some h

/-- Fuel beyond the length of the unread text does not change the matches. -/
theorem findAllFrom_fuel (n : Nat) :
    ∀ (rest : List Char) (m : Nat), rest.length ≤ n → rest.length ≤ m →
      findAllFrom n rest = findAllFrom m rest := by
  induction n with
  | zero =>
    intro rest m hn _
    have hr : rest = [] := List.length_eq_zero.mp (Nat.le_zero.mp hn)
    subst hr
    cases m <;> simp [findAllFrom]
  | succ n ih =>
    intro rest m hn hm
    cases rest with
    | nil => cases m <;> simp [findAllFrom]
    | cons c rest =>
      cases m with
      | zero => simp at hm
      | succ m =>
        simp only [List.length_cons, Nat.add_le_add_iff_right] at hn hm
        have d1 : (rest.dropWhile isReSpace).length ≤ rest.length :=
          (List.dropWhile_suffix isReSpace).length_le
        have d2 : (rest.dropWhile isWordChar).length ≤ rest.length :=
          (List.dropWhile_suffix isWordChar).length_le
        have d3 : ((rest.dropWhile isWordChar).dropWhile isReSpace).length ≤
            (rest.dropWhile isWordChar).length :=
          (List.dropWhile_suffix isReSpace).length_le
        simp only [findAllFrom]
        rw [ih (rest.dropWhile isReSpace) m (by omega) (by omega),
          ih ((rest.dropWhile isWordChar).dropWhile isReSpace) m (by omega) (by omega),
          ih rest m hn hm]

/-- Every match collected from the unread text `rest`, read after the text `pre`, follows the
grammar of the code, provided the search starts at a position of the kind it reaches: not in the
middle of a run of word characters that begins with an alphanumeric character. -/
theorem findAllFrom_grammar (fuel : Nat) :
    ∀ (pre rest : List Char),
      (∀ p, pre.getLast? = some p → isAlnum p = true →
        ∀ c, rest.head? = some c → isWordChar c = false) →
      ∀ tok ∈ findAllFrom fuel rest, tokenGrammarOfCode (pre ++ rest) tok := by
  induction fuel with
  | zero =>
    intro pre rest _ tok h
    simp [findAllFrom] at h
  | succ fuel ih =>
    intro pre rest inv tok h
    cases rest with
    | nil => simp [findAllFrom] at h
    | cons c rest =>
      by_cases hs : isSymbol c = true
      · simp only [findAllFrom, hs, if_true, List.mem_cons] at h
        rcases h with h | h
        · subst h
          refine ⟨by simp, pre, [c], rest.takeWhile isReSpace, rest.dropWhile isReSpace,
            ⟨?_, ?_, ?_, ?_⟩, Or.inl ⟨c, rfl, hs⟩⟩
          · simp
          · simp
          · intro d hd
            exact List.mem_takeWhile_imp hd
          · intro d hd
            exact head?_dropWhile_false _ _ _ hd
        · have e : pre ++ c :: rest =
              (pre ++ c :: rest.takeWhile isReSpace) ++ rest.dropWhile isReSpace := by simp
          rw [e]
          refine ih _ _ ?_ tok h
          intro p hp hal
          have hm := getLast?_append_mem pre (c :: rest.takeWhile isReSpace) p (by simp) hp
          rcases List.mem_cons.mp hm with hm | hm
          · subst hm
            rw [isSymbol_not_alnum _ hs] at hal
            cases hal
          · rw [isReSpace_not_alnum _ (List.mem_takeWhile_imp hm)] at hal
            cases hal
      · have hs1 : isSymbol c = false := by simpa using hs
        by_cases hw : isWordChar c = true
        · simp only [findAllFrom, hs1, hw, if_true, List.mem_cons, Bool.false_eq_true,
            if_false] at h
          have hsplit : rest.takeWhile isWordChar ++
              ((rest.dropWhile isWordChar).takeWhile isReSpace ++
                (rest.dropWhile isWordChar).dropWhile isReSpace) = rest := by
            rw [List.takeWhile_append_dropWhile, List.takeWhile_append_dropWhile]
          rcases h with h | h
          · subst h
            refine ⟨by simp, pre, c :: rest.takeWhile isWordChar,
              (rest.dropWhile isWordChar).takeWhile isReSpace,
              (rest.dropWhile isWordChar).dropWhile isReSpace, ⟨?_, ?_, ?_, ?_⟩,
              Or.inr ⟨by simp, ?_, ?_, ?_, ?_⟩⟩
            · simp only [List.append_assoc, List.cons_append]
              rw [hsplit]
            · simp
            · intro d hd
              exact List.mem_takeWhile_imp hd
            · intro d hd
              exact head?_dropWhile_false _ _ _ hd
            · intro d hd
              rcases List.mem_cons.mp hd with hd | hd
              · subst hd
                exact hw
              · exact List.mem_takeWhile_imp hd
            · intro d hd
              simp only [List.head?_cons, Option.some.injEq] at hd
              subst hd
              exact isAlnum_of_word_not_symbol _ hw hs1
            · intro d hd
              rw [List.takeWhile_append_dropWhile] at hd
              exact head?_dropWhile_false _ _ _ hd
            · intro p hp
              cases hal : isAlnum p with
              | false => rfl
              | true =>
                have := inv p hp hal c rfl
                rw [hw] at this
                cases this
          · have e : pre ++ c :: rest =
                ((pre ++ c :: rest.takeWhile isWordChar) ++
                  (rest.dropWhile isWordChar).takeWhile isReSpace) ++
                  (rest.dropWhile isWordChar).dropWhile isReSpace := by
              simp only [List.append_assoc, List.cons_append]
              rw [hsplit]
            have e2 : pre ++ c :: (rest.takeWhile isWordChar ++
                (rest.dropWhile isWordChar).takeWhile isReSpace) =
                (pre ++ c :: rest.takeWhile isWordChar) ++
                  (rest.dropWhile isWordChar).takeWhile isReSpace := by simp
            rw [e, ← e2]
            refine ih _ _ ?_ tok h
            intro p hp hal d hd
            by_cases hts : (rest.dropWhile isWordChar).takeWhile isReSpace = []
            · rw [dropWhile_of_takeWhile_nil _ _ hts] at hd
              exact head?_dropWhile_false _ _ _ hd
            · rw [e2] at hp
              have hm := getLast?_append_mem _ _ p hts hp
              rw [isReSpace_not_alnum _ (List.mem_takeWhile_imp hm)] at hal
              cases hal
        · have hw1 : isWordChar c = false := by simpa using hw
          simp only [findAllFrom, hs1, hw1, Bool.false_eq_true, if_false] at h
          have e : pre ++ c :: rest = (pre ++ [c]) ++ rest := by simp
          rw [e]
          refine ih _ _ ?_ tok h
          intro p hp hal
          rw [List.getLast?_concat] at hp
          simp only [Option.some.injEq] at hp
          subst hp
          rw [not_alnum_of_not_word _ hw1] at hal
          cases hal

/-- C10, as stated, fails: a word run need not be maximal on the left. In `_abc` the underscore is
matched first as a symbol, so `abc` is a token although the character before it is a word
character. -/
theorem tokenize_underscore_then_run :
    tokenize "_abc".toList = ["_".toList, "abc".toList] ∧
      ¬ tokenGrammar "_abc".toList "abc".toList := by
  refine ⟨by decide, ?_⟩
  rintro ⟨_, pre, core, ws, post, ⟨htext, htok, _, _⟩, hform⟩
  rcases hform with ⟨s, hcore, hsym⟩ | ⟨_, _, _, hpre⟩
  · subst hcore
    have hs : s = 'a' := by
      have := congrArg List.head? htok
      simpa using this.symm
    subst hs
    exact absurd hsym (by decide)
  · rw [List.append_assoc, List.append_assoc, ← List.append_assoc core, ← htok] at htext
    cases pre with
    | nil =>
      have := congrArg List.head? htext
      simp at this
    | cons x pre =>
      have hlen := congrArg List.length htext
      simp at hlen
      have hp : pre = [] := List.length_eq_zero.mp (by omega)
      subst hp
      have hx := congrArg List.head? htext
      simp at hx
      subst hx
      exact absurd (hpre _ rfl) (by decide)

/-- C10, amended. Token grammar: every element of `tokenize text` is non-empty and stands in the
text as `c` followed by all the `\s` characters that come next, where `c` is exactly one character
of the symbol set, or a run of word characters that begins with an alphanumeric character, is not
followed by a word character and is not preceded by an alphanumeric character. -/
theorem tokenize_grammar (text tok : List Char) (h : tok ∈ tokenize text) :
    tokenGrammarOfCode text tok := by
  have key := findAllFrom_grammar text.length [] text (by simp) tok h
  simpa using key

theorem tokenize_grammar_witness :
    tokenGrammarOfCode "_abc def".toList "abc ".toList :=
  tokenize_grammar "_abc def".toList "abc ".toList (by decide)

/-! ## The response corpus and the lookup by substring -/

theorem HasPrefix_iff (s : List Char) : ∀ p : List Char, HasPrefix s p = true ↔ p <+: s := by
  induction s with
  | nil =>
    intro p
    cases p with
    | nil => simp [HasPrefix]
    | cons b p => simp [HasPrefix]
  | cons a s ih =>
    intro p
    cases p with
    | nil => simp [HasPrefix]
    | cons b p =>
      simp only [HasPrefix, Bool.and_eq_true, beq_iff_eq, ih p, List.cons_prefix_cons]
      constructor
      · rintro ⟨h1, h2⟩
        exact ⟨h1.symm, h2⟩
      · rintro ⟨h1, h2⟩
        exact ⟨h1.symm, h2⟩

/-- `Contains s substr` holds exactly when `substr` is a contiguous part of `s`. -/
theorem Contains_iff (s substr : List Char) : Contains s substr = true ↔ substr <:+: s := by
  induction s with
  | nil =>
    rw [Contains, HasPrefix_iff, List.prefix_nil, List.infix_nil]
  | cons a s ih =>
    rw [Contains, Bool.or_eq_true, HasPrefix_iff, ih, List.infix_cons_iff]

theorem Contains_eq_false_iff (s substr : List Char) :
    Contains s substr = false ↔ ¬ substr <:+: s := by
  rw [← Contains_iff]
  cases Contains s substr <;> simp

/-- The scan returns the first entry that contains `part`, or the empty string when none does. -/
theorem lookupFrom_spec (part : List Char) (l : List (List Char)) :
    ((∀ e ∈ l, ¬ part <:+: e) ∧ lookupFrom l part = []) ∨
      ∃ before e after, l = before ++ e :: after ∧ part <:+: e ∧
        (∀ x ∈ before, ¬ part <:+: x) ∧ lookupFrom l part = e := by
  induction l with
  | nil => exact Or.inl ⟨by simp, rfl⟩
  | cons str rest ih =>
    by_cases h : Contains str part = true
    · refine Or.inr ⟨[], str, rest, rfl, (Contains_iff _ _).mp h, by simp, ?_⟩
      simp [lookupFrom, h]
    · have hf : Contains str part = false := by simpa using h
      have hn : ¬ part <:+: str := (Contains_eq_false_iff _ _).mp hf
      have e : lookupFrom (str :: rest) part = lookupFrom rest part := by
        simp [lookupFrom, hf]
      rcases ih with ⟨hall, hres⟩ | ⟨before, x, after, hl, hx, hbefore, hres⟩
      · refine Or.inl ⟨?_, by rw [e, hres]⟩
        intro y hy
        rcases List.mem_cons.mp hy with hy | hy
        · subst hy
          exact hn
        · exact hall y hy
      · refine Or.inr ⟨str :: before, x, after, by rw [hl]; rfl, hx, ?_, by rw [e, hres]⟩
        intro y hy
        rcases List.mem_cons.mp hy with hy | hy
        · subst hy
          exact hn
        · exact hbefore y hy

theorem corpus_entries_nonempty : ∀ e ∈ chatCompletionFakeResponses, e ≠ [] := by decide

/-- The first entry containing `part` is unique: two decompositions of a list at a first entry
containing `part` agree on that entry. -/
theorem first_containing_unique (part : List Char) (l : List (List Char)) :
    ∀ (b1 b2 : List (List Char)) (e1 e2 : List Char) (a1 a2 : List (List Char)),
      l = b1 ++ e1 :: a1 → l = b2 ++ e2 :: a2 → part <:+: e1 → part <:+: e2 →
      (∀ x ∈ b1, ¬ part <:+: x) → (∀ x ∈ b2, ¬ part <:+: x) → e1 = e2 := by
  induction l with
  | nil =>
    intro b1 b2 e1 e2 a1 a2 h1
    simp at h1
  | cons y l ih =>
    intro b1 b2 e1 e2 a1 a2 h1 h2 p1 p2 n1 n2
    cases b1 with
    | nil =>
      cases b2 with
      | nil =>
        simp only [List.nil_append, List.cons.injEq] at h1 h2
        rw [← h1.1, ← h2.1]
      | cons z b2 =>
        simp only [List.nil_append, List.cons_append, List.cons.injEq] at h1 h2
        have hz : ¬ part <:+: z := n2 z (List.mem_cons_self _ _)
        rw [← h2.1, h1.1] at hz
        exact absurd p1 hz
    | cons z b1 =>
      cases b2 with
      | nil =>
        simp only [List.nil_append, List.cons_append, List.cons.injEq] at h1 h2
        have hz : ¬ part <:+: z := n1 z (List.mem_cons_self _ _)
        rw [← h1.1, h2.1] at hz
        exact absurd p2 hz
      | cons w b2 =>
        simp only [List.cons_append, List.cons.injEq] at h1 h2
        exact ih b1 b2 e1 e2 a1 a2 h1.2 h2.2 p1 p2
          (fun x hx => n1 x (List.mem_cons_of_mem _ hx))
          (fun x hx => n2 x (List.mem_cons_of_mem _ hx))

/-- C13. Partial-match lookup: `getFullTextFromPartialString part` returns the first entry of the
corpus, in corpus order, that contains `part` as a substring; it returns the empty string if and
only if no entry contains `part`; for the empty `part` it returns the first corpus entry. -/
theorem getFullTextFromPartialString_first (part : List Char) :
    (∀ before e after, chatCompletionFakeResponses = before ++ e :: after → part <:+: e →
        (∀ x ∈ before, ¬ part <:+: x) → getFullTextFromPartialString part = e) ∧
      (getFullTextFromPartialString part = [] ↔
        ∀ e ∈ chatCompletionFakeResponses, ¬ part <:+: e) ∧
      ((∀ e ∈ chatCompletionFakeResponses, ¬ part <:+: e) ∨
        ∃ before e after, chatCompletionFakeResponses = before ++ e :: after ∧ part <:+: e ∧
          (∀ x ∈ before, ¬ part <:+: x) ∧ getFullTextFromPartialString part = e) ∧
      getFullTextFromPartialString [] = chatCompletionFakeResponses.headD [] ∧
      chatCompletionFakeResponses.headD [] ∈ chatCompletionFakeResponses := by
  refine ⟨?_, ?_, ?_, by decide, by decide⟩
  · intro before e after hl he hbefore
    rcases lookupFrom_spec part chatCompletionFakeResponses with
      ⟨hall, _⟩ | ⟨b2, e2, a2, hl2, he2, hb2, hres⟩
    · exact absurd he (hall e (by rw [hl]; simp))
    · unfold getFullTextFromPartialString
      rw [hres]
      exact first_containing_unique part _ b2 before e2 e a2 after hl2 hl he2 he hb2 hbefore
  · constructor
    · intro hres
      rcases lookupFrom_spec part chatCompletionFakeResponses with
        ⟨hall, _⟩ | ⟨b2, e2, a2, hl2, _, _, hres2⟩
      · exact hall
      · unfold getFullTextFromPartialString at hres
        rw [hres] at hres2
        have hmem : e2 ∈ chatCompletionFakeResponses := by rw [hl2]; simp
        exact absurd hres2.symm (corpus_entries_nonempty e2 hmem)
    · intro hall
      rcases lookupFrom_spec part chatCompletionFakeResponses with
        ⟨_, hres⟩ | ⟨b2, e2, a2, hl2, he2, _, _⟩
      · exact hres
      · exact absurd he2 (hall e2 (by rw [hl2]; simp))
  · rcases lookupFrom_spec part chatCompletionFakeResponses with
      ⟨hall, _⟩ | ⟨b2, e2, a2, hl2, he2, hb2, hres⟩
    · exact Or.inl hall
    · exact Or.inr ⟨b2, e2, a2, hl2, he2, hb2, hres⟩

theorem corpus_fields_le : ∀ e ∈ chatCompletionFakeResponses, (Fields e).length ≤ 24 := by
  decide

/-- For a corpus entry every budget `b ≥ 1` behaves like one of the budgets `1, …, 24`: the
budget itself when `b ≤ 24`, and 24 (a full emission) otherwise. -/
theorem corpus_budget_reduce (e : List Char) (he : e ∈ chatCompletionFakeResponses) (b : Int)
    (hb : 1 ≤ b) :
    ∃ k ∈ List.range 25, 1 ≤ k ∧ ((k : Int) = b ∨ (24 < b ∧ k = 24)) ∧
      getResponseText (some b) e = getResponseText (some (k : Int)) e := by
  have hn := corpus_fields_le e he
  by_cases h : b ≤ 24
  · refine ⟨b.toNat, ?_, ?_, Or.inl ?_, ?_⟩
    · rw [List.mem_range]
      omega
    · omega
    · omega
    · have hk : ((b.toNat : Nat) : Int) = b := by omega
      rw [hk]
  · refine ⟨24, by decide, by decide, Or.inr ⟨by omega, rfl⟩, ?_⟩
    rw [getResponseText_of_ge e b hb (by omega),
      getResponseText_of_ge e ((24 : Nat) : Int) (by decide) (by omega)]

set_option maxRecDepth 100000 in
theorem corpus_emission_table :
    ∀ e ∈ chatCompletionFakeResponses, ∀ k ∈ List.range 25, 1 ≤ k →
      (getResponseText (some (k : Int)) e).1 ≠ [] ∧
        HasPrefix e (getResponseText (some (k : Int)) e).1 = true ∧
        getFullTextFromPartialString (getResponseText (some (k : Int)) e).1 ≠ [] := by
  decide

set_option maxRecDepth 100000 in
theorem corpus_lookup_table :
    ∀ i ∈ List.range 11, ∀ k ∈ List.range 25, 1 ≤ k →
      (getFullTextFromPartialString
          (getResponseText (some (k : Int)) (chatCompletionFakeResponses.getD i [])).1 =
          chatCompletionFakeResponses.getD i [] ↔
        ¬ ((i = 3 ∧ k ≤ 2) ∨ ((i = 6 ∨ i = 7 ∨ i = 9) ∧ k = 1))) := by
  decide

theorem corpus_no_earlier_superstring :
    chatCompletionFakeResponses.Pairwise (fun x e => Contains x e = false) := by
  decide

/-- C14, as stated, fails: with budget 1 the entry `I am your AI assistant, how can I help you
today?` emits `I`, and the lookup returns the earlier entry `I am fine, how are you today?`, which
also contains `I`. -/
theorem lookup_of_emission_returns_earlier_entry :
    "I am your AI assistant, how can I help you today?".toList ∈ chatCompletionFakeResponses ∧
      (getResponseText (some 1) "I am your AI assistant, how can I help you today?".toList).1 =
        "I".toList ∧
      getFullTextFromPartialString
          (getResponseText (some 1)
            "I am your AI assistant, how can I help you today?".toList).1 =
        "I am fine, how are you today?".toList ∧
      getFullTextFromPartialString
          (getResponseText (some 1)
            "I am your AI assistant, how can I help you today?".toList).1 ≠
        "I am your AI assistant, how can I help you today?".toList := by
  decide

/-- C14, amended. Streaming recovery: for the corpus entry `e` at position `i` (counted from 0)
and every budget `b ≥ 1`, the lookup on the text emitted by `getResponseText` returns `e` except
for exactly five pairs, where an earlier entry also contains the emitted text: entry 3 with budget
1 or 2, and entries 6, 7 and 9 with budget 1. In particular it returns `e` for every `b ≥ 3`. -/
theorem lookup_of_emission (i : Nat) (e : List Char) (b : Int)
    (he : chatCompletionFakeResponses[i]? = some e) (hb : 1 ≤ b) :
    (getFullTextFromPartialString (getResponseText (some b) e).1 = e ↔
        ¬ ((i = 3 ∧ b ≤ 2) ∨ ((i = 6 ∨ i = 7 ∨ i = 9) ∧ b = 1))) ∧
      (3 ≤ b → getFullTextFromPartialString (getResponseText (some b) e).1 = e) := by
  obtain ⟨hi, hget⟩ := List.getElem?_eq_some.mp he
  have hmem : e ∈ chatCompletionFakeResponses := by
    rw [← hget]
    exact List.getElem_mem _
  have hD : chatCompletionFakeResponses.getD i [] = e := by
    rw [List.getD_eq_getElem?_getD, he]
    rfl
  obtain ⟨k, hk, hk1, hkb, hresp⟩ := corpus_budget_reduce e hmem b hb
  have T := corpus_lookup_table i (List.mem_range.mpr hi) k hk hk1
  rw [hD, ← hresp] at T
  have key : getFullTextFromPartialString (getResponseText (some b) e).1 = e ↔
      ¬ ((i = 3 ∧ b ≤ 2) ∨ ((i = 6 ∨ i = 7 ∨ i = 9) ∧ b = 1)) := by
    rw [T]
    constructor
    · intro h hc
      apply h
      rcases hkb with hkb | ⟨hkb, _⟩
      · rcases hc with ⟨h3, hb2⟩ | ⟨h6, hb1⟩
        · exact Or.inl ⟨h3, by omega⟩
        · exact Or.inr ⟨h6, by omega⟩
      · omega
    · intro h hc
      apply h
      rcases hkb with hkb | ⟨_, hk24⟩
      · rcases hc with ⟨h3, hb2⟩ | ⟨h6, hb1⟩
        · exact Or.inl ⟨h3, by omega⟩
        · exact Or.inr ⟨h6, by omega⟩
      · omega
  refine ⟨key, fun h3 => key.mpr ?_⟩
  omega

theorem lookup_of_emission_witness :
    (getFullTextFromPartialString
          (getResponseText (some 3)
            "I am your AI assistant, how can I help you today?".toList).1 =
          "I am your AI assistant, how can I help you today?".toList ↔
        ¬ (((3 : Nat) = 3 ∧ (3 : Int) ≤ 2) ∨
          (((3 : Nat) = 6 ∨ (3 : Nat) = 7 ∨ (3 : Nat) = 9) ∧ (3 : Int) = 1))) ∧
      ((3 : Int) ≤ 3 →
        getFullTextFromPartialString
          (getResponseText (some 3)
            "I am your AI assistant, how can I help you today?".toList).1 =
          "I am your AI assistant, how can I help you today?".toList) :=
  lookup_of_emission 3 "I am your AI assistant, how can I help you today?".toList 3
    (by decide) (by decide)

/-- C19. Corpus entries are their own lookup result: for every corpus entry `e`,
`getFullTextFromPartialString e = e`; no corpus entry is empty, and no corpus entry is a substring
of an entry that precedes it in corpus order. -/
theorem corpus_entries_self_lookup :
    (∀ e ∈ chatCompletionFakeResponses, getFullTextFromPartialString e = e) ∧
      (∀ e ∈ chatCompletionFakeResponses, e ≠ []) ∧
      (∀ before e after, chatCompletionFakeResponses = before ++ e :: after →
        ∀ x ∈ before, ¬ e <:+: x) := by
  refine ⟨by decide, by decide, ?_⟩
  intro before e after hl x hx
  have P := corpus_no_earlier_superstring
  rw [hl] at P
  have h := (List.pairwise_append.mp P).2.2 x hx e (List.mem_cons_self _ _)
  exact (Contains_eq_false_iff x e).mp h

/-- C20. Truncating a corpus entry gives a true prefix: for every corpus entry `e` and every
budget `b ≥ 1`, the text emitted by `getResponseText` is non-empty and is a prefix of `e`, and the
lookup on it does not return the empty (not-found) string. -/
theorem corpus_emission_is_prefix (e : List Char) (he : e ∈ chatCompletionFakeResponses)
    (b : Int) (hb : 1 ≤ b) :
    (getResponseText (some b) e).1 ≠ [] ∧ (getResponseText (some b) e).1 <+: e ∧
      getFullTextFromPartialString (getResponseText (some b) e).1 ≠ [] := by
  obtain ⟨k, hk, hk1, _, hresp⟩ := corpus_budget_reduce e he b hb
  have T := corpus_emission_table e he k hk hk1
  rw [← hresp] at T
  exact ⟨T.1, (HasPrefix_iff _ _).mp T.2.1, T.2.2⟩

theorem corpus_emission_is_prefix_witness :
    (getResponseText (some 2) "The rest is silence. ".toList).1 ≠ [] ∧
      (getResponseText (some 2) "The rest is silence. ".toList).1 <+:
        "The rest is silence. ".toList ∧
      getFullTextFromPartialString (getResponseText (some 2) "The rest is silence. ".toList).1 ≠
        [] :=
  corpus_emission_is_prefix "The rest is silence. ".toList (by decide) 2 (by decide)

/-! ## The tokenizer: round trip, white space and size -/

theorem isAlnum_toNat (c : Char) (h : isAlnum c = true) :
    (48 ≤ c.toNat ∧ c.toNat ≤ 57) ∨ (65 ≤ c.toNat ∧ c.toNat ≤ 90) ∨
      (97 ≤ c.toNat ∧ c.toNat ≤ 122) := by
  simp only [isAlnum, Bool.or_eq_true, Bool.and_eq_true, decide_eq_true_eq] at h
  rcases h with (⟨h1, h2⟩ | ⟨h1, h2⟩) | ⟨h1, h2⟩
  · exact Or.inl ⟨h1, h2⟩
  · exact Or.inr (Or.inl ⟨h1, h2⟩)
  · exact Or.inr (Or.inr ⟨h1, h2⟩)

theorem isSpace_toNat (c : Char) (h : isSpace c = true) :
    (9 ≤ c.toNat ∧ c.toNat ≤ 13) ∨ c.toNat = 32 ∨ 127 < c.toNat := by
  simp only [isSpace, Bool.or_eq_true, Bool.and_eq_true, decide_eq_true_eq, beq_iff_eq] at h
  omega

/-- A white space character, in the sense of `unicode.IsSpace`, starts no match of `re`. -/
theorem isSpace_unmatched (c : Char) (h : isSpace c = true) :
    isSymbol c = false ∧ isWordChar c = false := by
  constructor
  · have key : ∀ d ∈ symbolSet, isSpace d = false := by decide
    cases hs : isSymbol c with
    | false => rfl
    | true =>
      have := key c (by simpa [isSymbol] using hs)
      rw [h] at this
      cases this
  · cases hw : isWordChar c with
    | false => rfl
    | true =>
      unfold isWordChar at hw
      rcases Bool.or_eq_true _ _ ▸ hw with ha | hu
      · have h1 := isAlnum_toNat c ha
        have h2 := isSpace_toNat c h
        omega
      · have hc : c = '_' := by simpa using hu
        subst hc
        exact absurd h (by decide)

theorem isReSpace_isSpace (c : Char) (h : isReSpace c = true) : isSpace c = true := by
  have key : ∀ d ∈ reSpaceSet, isSpace d = true := by decide
  exact key c (by simpa [isReSpace] using h)

theorem findAllFrom_unmatched (fuel : Nat) :
    ∀ rest : List Char, (∀ c ∈ rest, isSymbol c = false ∧ isWordChar c = false) →
      findAllFrom fuel rest = [] := by
  induction fuel with
  | zero => intro rest _; rfl
  | succ fuel ih =>
    intro rest h
    cases rest with
    | nil => rfl
    | cons c rest =>
      have hc := h c (List.mem_cons_self _ _)
      simp only [findAllFrom, hc.1, hc.2, Bool.false_eq_true, if_false]
      exact ih rest (fun d hd => h d (List.mem_cons_of_mem _ hd))

theorem findAllFrom_length_le (fuel : Nat) :
    ∀ rest : List Char, (findAllFrom fuel rest).length ≤ rest.length := by
  induction fuel with
  | zero => intro rest; simp [findAllFrom]
  | succ fuel ih =>
    intro rest
    cases rest with
    | nil => simp [findAllFrom]
    | cons c rest =>
      have d1 : (rest.dropWhile isReSpace).length ≤ rest.length :=
        (List.dropWhile_suffix isReSpace).length_le
      have d2 : (rest.dropWhile isWordChar).length ≤ rest.length :=
        (List.dropWhile_suffix isWordChar).length_le
      have d3 : ((rest.dropWhile isWordChar).dropWhile isReSpace).length ≤
          (rest.dropWhile isWordChar).length :=
        (List.dropWhile_suffix isReSpace).length_le
      have i1 := ih (rest.dropWhile isReSpace)
      have i2 := ih ((rest.dropWhile isWordChar).dropWhile isReSpace)
      have i3 := ih rest
      by_cases hs : isSymbol c = true
      · simp only [findAllFrom, hs, if_true, List.length_cons]
        omega
      · have hs1 : isSymbol c = false := by simpa using hs
        by_cases hw : isWordChar c = true
        · simp only [findAllFrom, hs1, hw, if_true, Bool.false_eq_true, if_false,
            List.length_cons]
          omega
        · have hw1 : isWordChar c = false := by simpa using hw
          simp only [findAllFrom, hs1, hw1, Bool.false_eq_true, if_false, List.length_cons]
          omega

/-- Concatenating the matches gives the unread text back when every character of it belongs to
one of the three classes of `re` and it does not begin with `\s`. -/
theorem findAllFrom_flatten (fuel : Nat) :
    ∀ rest : List Char, rest.length ≤ fuel →
      (∀ c ∈ rest, isWordChar c = true ∨ isSymbol c = true ∨ isReSpace c = true) →
      (∀ c, rest.head? = some c → isReSpace c = false) →
      (findAllFrom fuel rest).flatten = rest := by
  induction fuel with
  | zero =>
    intro rest hlen _ _
    have hr : rest = [] := List.length_eq_zero.mp (Nat.le_zero.mp hlen)
    subst hr
    rfl
  | succ fuel ih =>
    intro rest hlen hcls hhead
    cases rest with
    | nil => rfl
    | cons c rest =>
      simp only [List.length_cons, Nat.add_le_add_iff_right] at hlen
      have hc : isReSpace c = false := hhead c rfl
      have hrest : ∀ d ∈ rest, isWordChar d = true ∨ isSymbol d = true ∨ isReSpace d = true :=
        fun d hd => hcls d (List.mem_cons_of_mem _ hd)
      have d1 : (rest.dropWhile isReSpace).length ≤ rest.length :=
        (List.dropWhile_suffix isReSpace).length_le
      have d2 : (rest.dropWhile isWordChar).length ≤ rest.length :=
        (List.dropWhile_suffix isWordChar).length_le
      have d3 : ((rest.dropWhile isWordChar).dropWhile isReSpace).length ≤
          (rest.dropWhile isWordChar).length :=
        (List.dropWhile_suffix isReSpace).length_le
      by_cases hs : isSymbol c = true
      · simp only [findAllFrom, hs, if_true, List.flatten_cons]
        rw [ih (rest.dropWhile isReSpace) (by omega)
          (fun d hd => hrest d ((List.dropWhile_suffix isReSpace).subset hd))
          (fun d hd => head?_dropWhile_false _ _ _ hd)]
        simp
      · have hs1 : isSymbol c = false := by simpa using hs
        have hw : isWordChar c = true := by
          rcases hcls c (List.mem_cons_self _ _) with h | h | h
          · exact h
          · rw [hs1] at h
            cases h
          · rw [hc] at h
            cases h
        simp only [findAllFrom, hs1, hw, if_true, Bool.false_eq_true, if_false,
          List.flatten_cons]
        rw [ih ((rest.dropWhile isWordChar).dropWhile isReSpace) (by omega)
          (fun d hd => hrest d ((List.dropWhile_suffix isWordChar).subset
            ((List.dropWhile_suffix isReSpace).subset hd)))
          (fun d hd => head?_dropWhile_false _ _ _ hd)]
        simp

/-- C11. Tokenize/concatenate round trip: for every text that does not begin with white space
and consists only of word characters, symbol-set characters and white space (the class `\s` of
`re`), concatenating the elements of `tokenize text` in order gives back the text; this holds in
particular for each of the 11 corpus entries. -/
theorem tokenize_flatten :
    (∀ text : List Char,
        (∀ c, text.head? = some c → isReSpace c = false) →
        (∀ c ∈ text, isWordChar c = true ∨ isSymbol c = true ∨ isReSpace c = true) →
        (tokenize text).flatten = text) ∧
      chatCompletionFakeResponses.length = 11 ∧
      (∀ e ∈ chatCompletionFakeResponses, (tokenize e).flatten = e) := by
  refine ⟨?_, by decide, by decide⟩
  intro text hhead hcls
  exact findAllFrom_flatten text.length text (Nat.le_refl _) hcls hhead

/-- A character outside the three classes of `re` is lost by the round trip: the vertical tab is
white space for `unicode.IsSpace` but not a member of `\s`. -/
theorem tokenize_flatten_vertical_tab :
    isSpace (Char.ofNat 11) = true ∧ isReSpace (Char.ofNat 11) = false ∧
      (tokenize ['a', Char.ofNat 11, 'b']).flatten = ['a', 'b'] := by
  decide

/-- C12. `tokenize` of the empty string is the empty sequence; `tokenize` of a text made only of
white space (in the sense of `unicode.IsSpace`, and so also of `\s`) is the empty sequence; for
every text the result has at most as many tokens as the text has characters. -/
theorem tokenize_whitespace_and_size :
    tokenize [] = [] ∧
      (∀ text : List Char, (∀ c ∈ text, isSpace c = true) → tokenize text = []) ∧
      (∀ text : List Char, (∀ c ∈ text, isReSpace c = true) → tokenize text = []) ∧
      (∀ text : List Char, (tokenize text).length ≤ text.length) := by
  refine ⟨rfl, ?_, ?_, ?_⟩
  · intro text h
    exact findAllFrom_unmatched text.length text (fun c hc => isSpace_unmatched c (h c hc))
  · intro text h
    exact findAllFrom_unmatched text.length text
      (fun c hc => isSpace_unmatched c (isReSpace_isSpace c (h c hc)))
  · intro text
    exact findAllFrom_length_le text.length text

/-! ## The random source -/

theorem randomInt_eq {σ α : Type} (g : Rand σ α) (min max : Int) (s : σ)
    (hmin : inInt64 min) (hmax : inInt64 max) (hle : min ≤ max)
    (hn : inInt64 (max - min + 1)) :
    randomInt g min max s =
      some ((g.Intn (max - min + 1) s).1 + min, (g.Intn (max - min + 1) s).2) := by
  have hpos : 0 < max - min + 1 := by omega
  have hr := g.Intn_range (max - min + 1) s hpos
  have h1 : inInt64 (max - min) := by
    unfold inInt64 at *
    omega
  have h2 : inInt64 ((g.Intn (max - min + 1) s).1 + min) := by
    unfold inInt64 at *
    omega
  have hnot : ¬ max - min + 1 ≤ 0 := by omega
  simp only [randomInt, wrapInt64_of_inInt64 _ h1, wrapInt64_of_inInt64 _ hn, hnot, if_false,
    wrapInt64_of_inInt64 _ h2]

/-- C16. `randomInt` range: for `min ≤ max` with `max - min + 1` representable, `randomInt`
makes one draw `d` from `[0, max - min + 1)` and returns `d + min`, which lies in `[min, max]`,
both bounds included; and every integer `r` of `[min, max]` is the result for the draw
`d = r - min`. -/
theorem randomInt_range {σ α : Type} (g : Rand σ α) (min max : Int) (s : σ)
    (hmin : inInt64 min) (hmax : inInt64 max) (hle : min ≤ max)
    (hn : inInt64 (max - min + 1)) :
    (∃ d s1, g.Intn (max - min + 1) s = (d, s1) ∧ 0 ≤ d ∧ d < max - min + 1 ∧
        randomInt g min max s = some (d + min, s1) ∧ min ≤ d + min ∧ d + min ≤ max) ∧
      (∀ r, min ≤ r → r ≤ max → ∃ d, 0 ≤ d ∧ d < max - min + 1 ∧
        ∀ (g1 : Rand σ α) (s0 : σ), (g1.Intn (max - min + 1) s0).1 = d →
          (randomInt g1 min max s0).map Prod.fst = some r) := by
  have hpos : 0 < max - min + 1 := by omega
  constructor
  · have hr := g.Intn_range (max - min + 1) s hpos
    refine ⟨(g.Intn (max - min + 1) s).1, (g.Intn (max - min + 1) s).2, rfl, hr.1, hr.2,
      randomInt_eq g min max s hmin hmax hle hn, ?_, ?_⟩
    · omega
    · omega
  · intro r h1 h2
    refine ⟨r - min, by omega, by omega, ?_⟩
    intro g1 s0 hd
    rw [randomInt_eq g1 min max s0 hmin hmax hle hn, hd]
    simp

theorem randomInt_range_witness :
    (∃ d s1, counterRand.Intn (7 - 3 + 1) 12 = (d, s1) ∧ 0 ≤ d ∧ d < 7 - 3 + 1 ∧
        randomInt counterRand 3 7 12 = some (d + 3, s1) ∧ 3 ≤ d + 3 ∧ d + 3 ≤ 7) ∧
      (∀ r, 3 ≤ r → r ≤ 7 → ∃ d, 0 ≤ d ∧ d < 7 - 3 + 1 ∧
        ∀ (g1 : Rand Nat ℚ) (s0 : Nat), (g1.Intn (7 - 3 + 1) s0).1 = d →
          (randomInt g1 3 7 s0).map Prod.fst = some r) :=
  randomInt_range counterRand 3 7 12 (by decide) (by decide) (by decide) (by decide)

/-- C15. Corpus selection stays in range: whatever the state of the generator,
`getRandomResponseText` draws an index in `[0, 10]`, the indexing does not go out of bounds and
the result is `getResponseText b e` for the corpus entry `e` at that index, the same for every
budget `b`; with no budget it is `(e, stop)`. The result is a function of the draw: two runs
whose draws agree, in particular two runs from the same generator state, give the same result. -/
theorem getRandomResponseText_in_corpus {σ α : Type} (g : Rand σ α) (s : σ) :
    (∃ (index : Nat) (e : List Char) (s1 : σ), index ≤ 10 ∧
        g.Intn 11 s = ((index : Int), s1) ∧
        randomInt g 0 10 s = some ((index : Int), s1) ∧
        chatCompletionFakeResponses[index]? = some e ∧ e ∈ chatCompletionFakeResponses ∧
        getRandomResponseText g none s = some ((e, stopFinishReason), s1) ∧
        ∀ b, getRandomResponseText g b s = some (getResponseText b e, s1)) ∧
      (∀ (b : Option Int) (g2 : Rand σ α) (s2 : σ), (g2.Intn 11 s2).1 = (g.Intn 11 s).1 →
        (getRandomResponseText g2 b s2).map Prod.fst =
          (getRandomResponseText g b s).map Prod.fst) ∧
      (∀ (b : Option Int) (s2 : σ), s2 = s →
        getRandomResponseText g b s2 = getRandomResponseText g b s) := by
  have hlen : ((chatCompletionFakeResponses.length : Nat) : Int) - 1 = 10 := by decide
  have hR : ∀ (g0 : Rand σ α) (s0 : σ),
      randomInt g0 0 10 s0 = some ((g0.Intn 11 s0).1, (g0.Intn 11 s0).2) := by
    intro g0 s0
    have e := randomInt_eq g0 0 10 s0 (by decide) (by decide) (by decide) (by decide)
    simpa using e
  have hG : ∀ (g0 : Rand σ α) (s0 : σ) (b : Option Int),
      ∃ e ∈ chatCompletionFakeResponses,
        chatCompletionFakeResponses[(g0.Intn 11 s0).1.toNat]? = some e ∧
        getRandomResponseText g0 b s0 = some (getResponseText b e, (g0.Intn 11 s0).2) := by
    intro g0 s0 b
    have hr := g0.Intn_range 11 s0 (by decide)
    have hlt : (g0.Intn 11 s0).1.toNat < chatCompletionFakeResponses.length := by
      have : chatCompletionFakeResponses.length = 11 := by decide
      omega
    refine ⟨chatCompletionFakeResponses[(g0.Intn 11 s0).1.toNat], List.getElem_mem _,
      List.getElem?_eq_getElem hlt, ?_⟩
    have hneg : ¬ (g0.Intn 11 s0).1 < 0 := by omega
    simp only [getRandomResponseText, hlen, hR g0 s0, hneg, if_false,
      List.getElem?_eq_getElem hlt]
  have hr := g.Intn_range 11 s (by decide)
  refine ⟨?_, ?_, ?_⟩
  · obtain ⟨e, hmem, hidx, _⟩ := hG g s none
    refine ⟨(g.Intn 11 s).1.toNat, e, (g.Intn 11 s).2, by omega, ?_, ?_, hidx, hmem, ?_, ?_⟩
    · have : (((g.Intn 11 s).1.toNat : Nat) : Int) = (g.Intn 11 s).1 := by omega
      rw [this]
    · have : (((g.Intn 11 s).1.toNat : Nat) : Int) = (g.Intn 11 s).1 := by omega
      rw [this]
      exact hR g s
    · obtain ⟨e2, _, hidx2, hres⟩ := hG g s none
      rw [hidx] at hidx2
      cases hidx2
      exact hres
    · intro b
      obtain ⟨e2, _, hidx2, hres⟩ := hG g s b
      rw [hidx] at hidx2
      cases hidx2
      exact hres
  · intro b g2 s2 hd
    obtain ⟨e1, _, hidx1, hres1⟩ := hG g s b
    obtain ⟨e2, _, hidx2, hres2⟩ := hG g2 s2 b
    rw [hd, hidx1] at hidx2
    cases hidx2
    rw [hres1, hres2]
    rfl
  · intro b s2 h
    rw [h]

theorem getRandomResponseText_in_corpus_witness :
    ∃ e ∈ chatCompletionFakeResponses, ∃ s1 : Nat,
      getRandomResponseText counterRand none 13 = some ((e, stopFinishReason), s1) ∧
        getRandomResponseText counterRand (some 2) 13 =
          some (getResponseText (some 2) e, s1) := by
  obtain ⟨_, e, s1, _, _, _, _, hmem, hnil, hb⟩ :=
    (getRandomResponseText_in_corpus counterRand 13).1
  exact ⟨e, hmem, s1, hnil, hb (some 2)⟩

/-- C17. Normal clamp over exact arithmetic in an ordered field, the standard-normal draw `z`
being whatever the generator returns: for `mean > 0` and `stddev > 0`, `randomNorm` consumes the
draw and returns a value in `[3/10 * mean, 17/10 * mean]`, equal to `z * stddev + mean` when that
lies in the interval, to the lower bound when it is below and to the upper bound when it is above;
and `randomNorm mean 0` returns `mean` and leaves the state of the generator unchanged. -/
theorem randomNorm_clamp {σ α : Type} [LinearOrderedField α] (g : Rand σ α) (s : σ) :
    (∀ (mean stddev z : α) (s1 : σ), g.NormFloat64 s = (z, s1) → 0 < mean → 0 < stddev →
        (randomNorm g mean stddev s).2 = s1 ∧
        3 / 10 * mean ≤ (randomNorm g mean stddev s).1 ∧
        (randomNorm g mean stddev s).1 ≤ 17 / 10 * mean ∧
        (3 / 10 * mean ≤ z * stddev + mean → z * stddev + mean ≤ 17 / 10 * mean →
          (randomNorm g mean stddev s).1 = z * stddev + mean) ∧
        (z * stddev + mean < 3 / 10 * mean →
          (randomNorm g mean stddev s).1 = 3 / 10 * mean) ∧
        (17 / 10 * mean < z * stddev + mean →
          (randomNorm g mean stddev s).1 = 17 / 10 * mean)) ∧
      (∀ mean : α, randomNorm g mean 0 s = (mean, s)) := by
  constructor
  · intro mean stddev z s1 hdraw hmean hstd
    have hne : stddev ≠ 0 := ne_of_gt hstd
    have hbounds : 3 / 10 * mean ≤ 17 / 10 * mean := by
      have : (3 : α) / 10 ≤ 17 / 10 := by norm_num
      exact mul_le_mul_of_nonneg_right this (le_of_lt hmean)
    by_cases h1 : z * stddev + mean < 3 / 10 * mean
    · have e : randomNorm g mean stddev s = (3 / 10 * mean, s1) := by
        simp [randomNorm, hne, hdraw, h1]
      rw [e]
      refine ⟨rfl, le_refl _, hbounds, ?_, fun _ => rfl, ?_⟩
      · intro h3 _
        exact absurd h1 (not_lt.mpr h3)
      · intro h4
        exact absurd (lt_of_le_of_lt hbounds h4) (not_lt.mpr (le_of_lt h1))
    · by_cases h2 : z * stddev + mean > 17 / 10 * mean
      · have e : randomNorm g mean stddev s = (17 / 10 * mean, s1) := by
          simp [randomNorm, hne, hdraw, h1, h2]
        rw [e]
        refine ⟨rfl, hbounds, le_refl _, ?_, ?_, fun _ => rfl⟩
        · intro _ h4
          exact absurd h2 (not_lt.mpr h4)
        · intro h3
          exact absurd h3 h1
      · have e : randomNorm g mean stddev s = (z * stddev + mean, s1) := by
          simp [randomNorm, hne, hdraw, h1, h2]
        rw [e]
        refine ⟨rfl, not_lt.mp h1, not_lt.mp h2, fun _ _ => rfl, ?_, ?_⟩
        · intro h3
          exact absurd h3 h1
        · intro h4
          exact absurd h4 h2
  · intro mean
    simp [randomNorm]

theorem randomNorm_clamp_witness :
    (randomNorm counterRand (10 : ℚ) 4 7).1 = 17 / 10 * 10 ∧
      (randomNorm counterRand (10 : ℚ) 4 7).2 = 8 ∧
      randomNorm counterRand (10 : ℚ) 0 7 = (10, 7) := by
  have h := (randomNorm_clamp counterRand 7).1 10 4 5 8
    (by norm_num [counterRand]) (by norm_num) (by norm_num)
  exact ⟨h.2.2.2.2.2 (by norm_num), h.1, (randomNorm_clamp counterRand 7).2 10⟩

end LlmdInferenceSim
